import Mathlib

/-!
Verification of the Fibonacci cursor from `src/fibonacci.rs`.

The Rust struct `Fibonacci { full: Vec<BigInt>, count: usize }` is embedded as
a Lean structure with a `List ℤ` window (arbitrary-precision integers become
`ℤ`) and a `ℕ` step counter (usize, never allowed to underflow by the code's
own guard).  The three operations are translated branch for branch:

* `Fibonacci.next`     embeds `impl Iterator for Fibonacci :: next` (advance),
* `Fibonacci.previous` embeds `Fibonacci::previous` (retreat),
* `Fibonacci.current`  embeds `Fibonacci::current` (peek).

Stateful methods become functions `Fibonacci → Option ℤ × Fibonacci` returning
the produced value together with the successor state.  The defensive fallback
branches of the source (`_ => None` in `previous`, the missing-subslice
fallback in `next`, the empty-window fallback in `current`) are kept.
-/

/-- Classical Fibonacci numbers as integers, `F(0)=0, F(1)=1, F(2)=1, ...`,
the values the spec calls `F`. -/
def fibZ (n : ℕ) : ℤ := Nat.fib n

/-- Embedding of the Rust struct `Fibonacci { full: Vec<BigInt>, count: usize }`. -/
structure Fibonacci where
  full : List ℤ
  count : ℕ
  deriving DecidableEq, Repr

/-- Embedding of `Fibonacci::new`: window `[0]`, step counter `0`. -/
def Fibonacci.new : Fibonacci := ⟨[0], 0⟩

/-- Embedding of `Fibonacci::previous` (the spec's `retreat`).  The Rust method
mutates `self` and returns `Option<BigInt>`; here it returns the value paired
with the successor state.  The source decrements `count` first and then
branches on `full.len()`; the string comparison `to_string() == "0"` on a
`BigInt` is equivalent to the integer being `0`. -/
def Fibonacci.previous (f : Fibonacci) : Option ℤ × Fibonacci :=
  if f.count = 0 then
    (some 0, f)
  else
    match f.full with
    | [a, b, _d] =>
      if a = 0 then
        (if f.count - 1 = 1 then some 0 else some 1, ⟨[0, 1], f.count - 1⟩)
      else
        ((match ([b - a, a, b] : List ℤ).getLast? with
          | some val => some val
          | none => none), ⟨[b - a, a, b], f.count - 1⟩)
    | [a, _b] => (some 0, ⟨[a], f.count - 1⟩)
    | [_a] => (some 0, ⟨f.full, f.count - 1⟩)
    | _ => (none, ⟨f.full, f.count - 1⟩)

/-- Embedding of `impl Iterator for Fibonacci :: next` (the spec's `advance`).
The source increments `count` first, then branches on `full.len()`.  In the
final branch the source reads `full.get(length - 2..length)`; that subslice
exists exactly when `2 ≤ length`, and the `None` fallback returns `Some(0)`
leaving the window untouched. -/
def Fibonacci.next (f : Fibonacci) : Option ℤ × Fibonacci :=
  if f.full.length = 1 then
    (if f.count + 1 = 1 then some 0 else some 1, ⟨f.full ++ [1], f.count + 1⟩)
  else if f.full.length = 2 then
    (some f.full.sum, ⟨f.full ++ [f.full.sum], f.count + 1⟩)
  else if f.full.length = 3 ∧ f.count + 1 = 3 then
    (some 1, ⟨f.full, f.count + 1⟩)
  else if 2 ≤ f.full.length then
    (some (f.full.drop (f.full.length - 2)).sum,
      ⟨f.full.drop (f.full.length - 2) ++ [(f.full.drop (f.full.length - 2)).sum],
        f.count + 1⟩)
  else
    (some 0, ⟨f.full, f.count + 1⟩)

/-- Embedding of `Fibonacci::current` (the spec's `peek`); it does not change
the state, so it returns only the value. -/
def Fibonacci.current (f : Fibonacci) : Option ℤ :=
  if f.full.length = 2 then
    some 0
  else if f.full.length = 3 ∧ f.count = 2 then
    some 1
  else
    match f.full.getLast? with
    | some val => some val
    | none => some 0

/-- External operations of the cursor that change state (`peek` is stateless). -/
inductive Op where
  | advance
  | retreat
  deriving DecidableEq, Repr

/-- Apply one operation, returning the produced value and the successor state. -/
def applyOp (f : Fibonacci) : Op → Option ℤ × Fibonacci
  | Op.advance => Fibonacci.next f
  | Op.retreat => Fibonacci.previous f

/-- Run a list of operations from a state, collecting the returned values. -/
def run (f : Fibonacci) : List Op → List (Option ℤ) × Fibonacci
  | [] => ([], f)
  | op :: ops =>
    let this := applyOp f op
    let rest := run this.2 ops
    (this.1 :: rest.1, rest.2)

/-- State after `n` consecutive advances from the fresh cursor. -/
def advanceState : ℕ → Fibonacci
  | 0 => Fibonacci.new
  | n + 1 => (Fibonacci.next (advanceState n)).2

/-- States reachable from the fresh cursor by advance and retreat calls
(`peek`/`current` does not change the state, so sequences mentioning it
reach exactly the same states). -/
inductive Reachable : Fibonacci → Prop where
  | init : Reachable Fibonacci.new
  | next {f : Fibonacci} : Reachable f → Reachable (Fibonacci.next f).2
  | prev {f : Fibonacci} : Reachable f → Reachable (Fibonacci.previous f).2

/-- Explicit description of the reachable state space: six bootstrap states
plus the steady-state family of windows of three consecutive Fibonacci terms. -/
def GoodState (f : Fibonacci) : Prop :=
  f = ⟨[0], 0⟩ ∨ f = ⟨[0], 1⟩ ∨ f = ⟨[0, 1], 1⟩ ∨ f = ⟨[0, 1], 2⟩ ∨
    f = ⟨[0, 1, 1], 2⟩ ∨ f = ⟨[0, 1, 1], 3⟩ ∨
    ∃ m : ℕ, f = ⟨[fibZ (m + 1), fibZ (m + 2), fibZ (m + 3)], m + 4⟩

lemma fibZ_add (m : ℕ) : fibZ (m + 2) + fibZ (m + 3) = fibZ (m + 4) := by
  have h : Nat.fib (m + 4) = Nat.fib (m + 2) + Nat.fib (m + 3) :=
    Nat.fib_add_two
  unfold fibZ
  exact_mod_cast h.symm

lemma fibZ_sub (m : ℕ) : fibZ (m + 2) - fibZ (m + 1) = fibZ m := by
  have h : Nat.fib (m + 2) = Nat.fib m + Nat.fib (m + 1) := Nat.fib_add_two
  have h2 : fibZ (m + 2) = fibZ m + fibZ (m + 1) := by
    unfold fibZ; exact_mod_cast h
  omega

lemma fibZ_succ_pos (m : ℕ) : 0 < fibZ (m + 1) := by
  unfold fibZ
  exact_mod_cast Nat.fib_pos.mpr (Nat.succ_pos m)

lemma next_window3 (a b d : ℤ) (c : ℕ) (hc : c + 1 ≠ 3) :
    Fibonacci.next ⟨[a, b, d], c⟩ = (some (b + d), ⟨[b, d, b + d], c + 1⟩) := by
  simp [Fibonacci.next, hc]

lemma previous_window3 (a b d : ℤ) (c : ℕ) (ha : a ≠ 0) (hc : c ≠ 0) :
    Fibonacci.previous ⟨[a, b, d], c⟩ = (some b, ⟨[b - a, a, b], c - 1⟩) := by
  simp [Fibonacci.previous, ha, hc]

lemma goodState_next {f : Fibonacci} (h : GoodState f) :
    GoodState (Fibonacci.next f).2 := by
  rcases h with rfl | rfl | rfl | rfl | rfl | rfl | ⟨m, rfl⟩
  · exact Or.inr (Or.inr (Or.inl (by decide)))
  · exact Or.inr (Or.inr (Or.inr (Or.inl (by decide))))
  · exact Or.inr (Or.inr (Or.inr (Or.inr (Or.inl (by decide)))))
  · exact Or.inr (Or.inr (Or.inr (Or.inr (Or.inr (Or.inl (by decide))))))
  · exact Or.inr (Or.inr (Or.inr (Or.inr (Or.inr (Or.inl (by decide))))))
  · exact Or.inr (Or.inr (Or.inr (Or.inr (Or.inr (Or.inr ⟨0, by decide⟩)))))
  · rw [next_window3 (fibZ (m + 1)) (fibZ (m + 2)) (fibZ (m + 3)) (m + 4) (by omega)]
    refine Or.inr (Or.inr (Or.inr (Or.inr (Or.inr (Or.inr ⟨m + 1, ?_⟩)))))
    show Fibonacci.mk [fibZ (m + 2), fibZ (m + 3), fibZ (m + 2) + fibZ (m + 3)] (m + 4 + 1) = _
    rw [fibZ_add m]

lemma goodState_previous {f : Fibonacci} (h : GoodState f) :
    GoodState (Fibonacci.previous f).2 := by
  rcases h with rfl | rfl | rfl | rfl | rfl | rfl | ⟨m, rfl⟩
  · exact Or.inl (by decide)
  · exact Or.inl (by decide)
  · exact Or.inl (by decide)
  · exact Or.inr (Or.inl (by decide))
  · exact Or.inr (Or.inr (Or.inl (by decide)))
  · exact Or.inr (Or.inr (Or.inr (Or.inl (by decide))))
  · rw [previous_window3 (fibZ (m + 1)) (fibZ (m + 2)) (fibZ (m + 3)) (m + 4)
      (fibZ_succ_pos m).ne' (by omega)]
    show GoodState (Fibonacci.mk [fibZ (m + 2) - fibZ (m + 1), fibZ (m + 1), fibZ (m + 2)] (m + 4 - 1))
    rw [fibZ_sub m]
    cases m with
    | zero => exact Or.inr (Or.inr (Or.inr (Or.inr (Or.inr (Or.inl (by decide))))))
    | succ k => exact Or.inr (Or.inr (Or.inr (Or.inr (Or.inr (Or.inr ⟨k, rfl⟩)))))

lemma reachable_goodState {f : Fibonacci} (hf : Reachable f) : GoodState f := by
  induction hf with
  | init => exact Or.inl rfl
  | next _ ih => exact goodState_next ih
  | prev _ ih => exact goodState_previous ih

lemma current_eq_of_goodState {f : Fibonacci} (h : GoodState f) :
    Fibonacci.current f = some (if f.full.length = 3 then fibZ (f.count - 1) else 0) := by
  rcases h with rfl | rfl | rfl | rfl | rfl | rfl | ⟨m, rfl⟩
  · decide
  · decide
  · decide
  · decide
  · decide
  · decide
  · have h1 : m + 4 - 1 = m + 3 := by omega
    have h2 : m + 4 ≠ 2 := by omega
    simp [Fibonacci.current, h1, h2]

lemma advanceState_add_four (m : ℕ) :
    advanceState (m + 4) = ⟨[fibZ (m + 1), fibZ (m + 2), fibZ (m + 3)], m + 4⟩ := by
  induction m with
  | zero => decide
  | succ k ih =>
    show (Fibonacci.next (advanceState (k + 4))).2 = _
    rw [ih, next_window3 (fibZ (k + 1)) (fibZ (k + 2)) (fibZ (k + 3)) (k + 4) (by omega)]
    show Fibonacci.mk [fibZ (k + 2), fibZ (k + 3), fibZ (k + 2) + fibZ (k + 3)] (k + 4 + 1) = _
    rw [fibZ_add k]

lemma next_advanceState (n : ℕ) :
    (Fibonacci.next (advanceState n)).1 = some (fibZ n) := by
  rcases n with _ | _ | _ | _ | m
  · decide
  · decide
  · decide
  · decide
  · show (Fibonacci.next (advanceState (m + 4))).1 = some (fibZ (m + 4))
    rw [advanceState_add_four m,
      next_window3 (fibZ (m + 1)) (fibZ (m + 2)) (fibZ (m + 3)) (m + 4) (by omega)]
    show some (fibZ (m + 2) + fibZ (m + 3)) = _
    rw [fibZ_add m]

lemma current_advanceState (n : ℕ) :
    Fibonacci.current (advanceState (n + 1)) = some (fibZ n) := by
  rcases n with _ | _ | _ | m
  · decide
  · decide
  · decide
  · show Fibonacci.current (advanceState (m + 4)) = some (fibZ (m + 3))
    rw [advanceState_add_four m]
    have h2 : m + 4 ≠ 2 := by omega
    simp [Fibonacci.current, h2]

/-- C1 counterexample: the claim says the n-th call to advance returns `F(n)`,
but the very first call to `next` on a fresh cursor returns `0`, while
`F(1) = 1`. -/
theorem first_advance_ne_fib_one :
    (Fibonacci.next Fibonacci.new).1 = some 0 ∧ fibZ 1 = 1 ∧
    (Fibonacci.next Fibonacci.new).1 ≠ some (fibZ 1) := by
  decide

/-- C1 (amended): for every `n ≥ 1`, the n-th call to `next` (advance) from
the fresh cursor returns `F(n-1)`, so the returned values form the sequence
`F(0), F(1), F(2), ... = 0, 1, 1, 2, 3, ...`. -/
theorem advance_nth_call_returns_fib_pred (n : ℕ) (_hn : 1 ≤ n) :
    (Fibonacci.next (advanceState (n - 1))).1 = some (fibZ (n - 1)) :=
  next_advanceState (n - 1)

/-- C1 witness: instantiated at the 5th call, which returns `F(4) = 3`. -/
theorem advance_nth_call_returns_fib_pred_witness :
    1 ≤ 5 ∧ (Fibonacci.next (advanceState (5 - 1))).1 = some (fibZ (5 - 1)) ∧
    fibZ 4 = 3 :=
  ⟨by decide, advance_nth_call_returns_fib_pred 5 (by decide), by decide⟩

/-- C2 counterexample: after `advance, advance, retreat` the step counter is
back to `1`, a value it held after the first advance, yet `peek` returns `0`
and `F(1) = 1`; moreover `peek` is not determined by the step alone: after
`advance, advance` the step is `2` with `peek = 1`, while after
`advance, advance, advance, retreat` the step is again `2` but `peek = 0`. -/
theorem roundtrip_peek_not_fib_of_step :
    ((run Fibonacci.new [Op.advance]).2.count = 1 ∧
      (run Fibonacci.new [Op.advance, Op.advance, Op.retreat]).2.count = 1 ∧
      Fibonacci.current (run Fibonacci.new [Op.advance, Op.advance, Op.retreat]).2 = some 0 ∧
      some (0 : ℤ) ≠ some (fibZ 1)) ∧
    ((run Fibonacci.new [Op.advance, Op.advance]).2.count = 2 ∧
      (run Fibonacci.new [Op.advance, Op.advance, Op.advance, Op.retreat]).2.count = 2 ∧
      Fibonacci.current (run Fibonacci.new [Op.advance, Op.advance]).2 = some 1 ∧
      Fibonacci.current
        (run Fibonacci.new [Op.advance, Op.advance, Op.advance, Op.retreat]).2 = some 0) := by
  decide

/-- C2 (amended): on every reachable state `peek` is determined jointly by the
step counter and the window length (not by the step alone): it returns
`F(step - 1)` when the window has length 3 and `0` when the window is shorter.
In particular any two moments of a call sequence with the same step and the
same window length observe the same `peek` value. -/
theorem peek_determined_by_step_and_window_length (f : Fibonacci) (hf : Reachable f) :
    Fibonacci.current f = some (if f.full.length = 3 then fibZ (f.count - 1) else 0) :=
  current_eq_of_goodState (reachable_goodState hf)

/-- C2 witness: instantiated at the reachable state after two advances, where
the window has length 3, the step is 2, and `peek` returns `F(1) = 1`. -/
theorem peek_determined_by_step_and_window_length_witness :
    Fibonacci.current (advanceState 2) =
      some (if (advanceState 2).full.length = 3 then fibZ ((advanceState 2).count - 1) else 0) ∧
    Fibonacci.current (advanceState 2) = some 1 :=
  ⟨peek_determined_by_step_and_window_length (advanceState 2)
      (Reachable.next (Reachable.next Reachable.init)),
    by decide⟩

/-- C3 (code bug evaluated): from the reachable state after two advances
(window `[0,1,1]`, step 2) `peek` returns `1`, but after `advance` followed by
`retreat` the state becomes window `[0,1]` with step 2, where `peek` returns
`0` — so `advance(); retreat()` does not restore the prior value of `peek`. -/
theorem advance_then_retreat_changes_peek :
    (run Fibonacci.new [Op.advance, Op.advance]).2 = ⟨[0, 1, 1], 2⟩ ∧
    Fibonacci.current ⟨[0, 1, 1], 2⟩ = some 1 ∧
    (run (⟨[0, 1, 1], 2⟩ : Fibonacci) [Op.advance, Op.retreat]).2 = ⟨[0, 1], 2⟩ ∧
    Fibonacci.current ⟨[0, 1], 2⟩ = some 0 := by
  decide

/-- C4 (code bug evaluated): from the reachable state after three advances
(window `[0,1,1]`, step 3), `retreat` returns `1`, but the immediately
following `peek` returns `0`, not the value `retreat` just produced. -/
theorem retreat_return_not_current_afterwards :
    (run Fibonacci.new [Op.advance, Op.advance, Op.advance]).2 = ⟨[0, 1, 1], 3⟩ ∧
    (Fibonacci.previous ⟨[0, 1, 1], 3⟩).1 = some 1 ∧
    Fibonacci.current (Fibonacci.previous ⟨[0, 1, 1], 3⟩).2 = some 0 := by
  decide

/-- C5: the interleaved sequence advance, advance, retreat, advance, advance,
retreat, retreat, advance, advance, advance, retreat, retreat, retreat from
the fresh cursor returns exactly 0, 1, 0, 1, 1, 1, 0, 1, 1, 2, 1, 1, 0. -/
theorem interleaved_sequence_values :
    (run Fibonacci.new
        [Op.advance, Op.advance, Op.retreat, Op.advance, Op.advance, Op.retreat,
          Op.retreat, Op.advance, Op.advance, Op.advance, Op.retreat, Op.retreat,
          Op.retreat]).1 =
      [some 0, some 1, some 0, some 1, some 1, some 1, some 0, some 1, some 1,
        some 2, some 1, some 1, some 0] := by
  decide

/-- C6: in retreat's general case (window `[a, b, d]` of length 3 with oldest
entry `a ≠ 0`, step `c ≥ 1`) the window is rebuilt as
`[reconstructed, old index 0, old index 1] = [b - a, a, b]`; the reconstructed
new oldest entry equals the rebuilt window's newest entry minus its
second-oldest entry (`b - a`), the step drops to `c - 1`, and the returned
value is the last entry of the rebuilt window, namely `b`. -/
theorem retreat_general_case (a b d : ℤ) (c : ℕ) (ha : a ≠ 0) (hc : c ≠ 0) :
    Fibonacci.previous ⟨[a, b, d], c⟩ =
      (([b - a, a, b] : List ℤ).getLast?, ⟨[b - a, a, b], c - 1⟩) ∧
    ([b - a, a, b] : List ℤ).getLast? = some b := by
  have hlast : ([b - a, a, b] : List ℤ).getLast? = some b := by
    simp [List.getLast?]
  refine ⟨?_, hlast⟩
  rw [previous_window3 a b d c ha hc, hlast]

/-- C6 witness: instantiated at the reachable state after four advances,
window `[1, 1, 2]` with step 4: retreat rebuilds the window to `[0, 1, 1]`
and returns its last entry `1`. -/
theorem retreat_general_case_witness :
    (Fibonacci.previous ⟨[1, 1, 2], 4⟩ =
        (([1 - 1, 1, 1] : List ℤ).getLast?, ⟨[1 - 1, 1, 1], 4 - 1⟩) ∧
      ([1 - 1, 1, 1] : List ℤ).getLast? = some 1) ∧
    Fibonacci.previous ⟨[1, 1, 2], 4⟩ = (some 1, ⟨[0, 1, 1], 3⟩) :=
  ⟨retreat_general_case 1 1 2 4 (by decide) (by decide), by decide⟩

/-- C7: every state reachable from the fresh cursor by advance and retreat
calls (peek leaves the state untouched) has a window of length 1, 2 or 3, and
whenever the step counter is 0 the window is exactly `[0]`. -/
theorem window_length_and_floor_invariant (f : Fibonacci) (hf : Reachable f) :
    (f.full.length = 1 ∨ f.full.length = 2 ∨ f.full.length = 3) ∧
    (f.count = 0 → f.full = [0]) := by
  rcases reachable_goodState hf with rfl | rfl | rfl | rfl | rfl | rfl | ⟨m, rfl⟩
  · decide
  · decide
  · decide
  · decide
  · decide
  · decide
  · exact ⟨Or.inr (Or.inr rfl), fun h => absurd (show m + 4 = 0 from h) (by omega)⟩

/-- C7 witness: instantiated at the reachable state after one advance, whose
window is `[0, 1]` of length 2 and whose step is 1. -/
theorem window_length_and_floor_invariant_witness :
    (((advanceState 1).full.length = 1 ∨ (advanceState 1).full.length = 2 ∨
        (advanceState 1).full.length = 3) ∧
      ((advanceState 1).count = 0 → (advanceState 1).full = [0])) ∧
    (advanceState 1).full = [0, 1] :=
  ⟨window_length_and_floor_invariant (advanceState 1) (Reachable.next Reachable.init),
    by decide⟩

/-- C8: on every reachable state with step 0, `retreat` returns `0` and leaves
the whole state (window and step) unchanged; hence any number of retreats at
the floor returns `0` each time and ends in the same state, and the step
counter (a natural number whose decrement the code guards by `count ≠ 0`)
stays nonnegative under every call sequence. -/
theorem retreat_at_floor_frame (f : Fibonacci) (_hf : Reachable f) (h0 : f.count = 0) :
    Fibonacci.previous f = (some 0, f) ∧
    (∀ k : ℕ, run f (List.replicate k Op.retreat) = (List.replicate k (some 0), f)) ∧
    ∀ ops : List Op, 0 ≤ ((run f ops).2.count : ℤ) := by
  have hprev : Fibonacci.previous f = (some 0, f) := by
    simp [Fibonacci.previous, h0]
  refine ⟨hprev, ?_, ?_⟩
  · intro k
    induction k with
    | zero => rfl
    | succ j ih =>
      rw [List.replicate_succ]
      show (let this := applyOp f Op.retreat
            let rest := run this.2 (List.replicate j Op.retreat)
            (this.1 :: rest.1, rest.2)) = _
      simp only [applyOp, hprev, ih, List.replicate_succ]
  · intro ops
    exact_mod_cast Nat.zero_le ((run f ops).2.count)

/-- C8 witness: instantiated at the fresh cursor (step 0): one retreat is a
no-op returning 0, two retreats return 0 twice, and the counter stays
nonnegative. -/
theorem retreat_at_floor_frame_witness :
    Fibonacci.previous Fibonacci.new = (some 0, Fibonacci.new) ∧
    run Fibonacci.new (List.replicate 2 Op.retreat) =
      (List.replicate 2 (some 0), Fibonacci.new) ∧
    0 ≤ (((run Fibonacci.new [Op.retreat, Op.retreat]).2.count : ℤ)) :=
  ⟨(retreat_at_floor_frame Fibonacci.new Reachable.init rfl).1,
    (retreat_at_floor_frame Fibonacci.new Reachable.init rfl).2.1 2,
    (retreat_at_floor_frame Fibonacci.new Reachable.init rfl).2.2 [Op.retreat, Op.retreat]⟩

/-- C9: on every reachable state all three operations return a value (`some`):
the defensive fallbacks — `previous`'s branch for window lengths outside
{1,2,3}, `next`'s missing-subslice fallback, and `current`'s empty-window
fallback — are never taken, and in particular the window is never empty. -/
theorem operations_total_on_reachable (f : Fibonacci) (hf : Reachable f) :
    (Fibonacci.next f).1.isSome = true ∧ (Fibonacci.previous f).1.isSome = true ∧
    (Fibonacci.current f).isSome = true ∧ f.full ≠ [] := by
  have hg := reachable_goodState hf
  have hcur := current_eq_of_goodState hg
  rcases hg with rfl | rfl | rfl | rfl | rfl | rfl | ⟨m, rfl⟩
  · decide
  · decide
  · decide
  · decide
  · decide
  · decide
  · refine ⟨?_, ?_, ?_, ?_⟩
    · rw [next_window3 (fibZ (m + 1)) (fibZ (m + 2)) (fibZ (m + 3)) (m + 4) (by omega)]
      rfl
    · rw [previous_window3 (fibZ (m + 1)) (fibZ (m + 2)) (fibZ (m + 3)) (m + 4)
        (fibZ_succ_pos m).ne' (by omega)]
      rfl
    · rw [hcur]
      rfl
    · simp

/-- C9 witness: instantiated at the reachable state after three advances. -/
theorem operations_total_on_reachable_witness :
    (Fibonacci.next (advanceState 3)).1.isSome = true ∧
    (Fibonacci.previous (advanceState 3)).1.isSome = true ∧
    (Fibonacci.current (advanceState 3)).isSome = true ∧ (advanceState 3).full ≠ [] :=
  operations_total_on_reachable (advanceState 3)
    (Reachable.next (Reachable.next (Reachable.next Reachable.init)))

/-- C10: for every `n ≥ 1` the n-th consecutive advance from the fresh cursor
returns `F(n-1)` and `peek` after those n advances also returns `F(n-1)`;
moreover every reachable state with step `≥ 4` has window exactly
`[F(step-3), F(step-2), F(step-1)]`. -/
theorem advance_values_and_steady_window (n : ℕ) (_hn : 1 ≤ n) (f : Fibonacci)
    (hf : Reachable f) (h4 : 4 ≤ f.count) :
    (Fibonacci.next (advanceState (n - 1))).1 = some (fibZ (n - 1)) ∧
    Fibonacci.current (advanceState n) = some (fibZ (n - 1)) ∧
    f.full = [fibZ (f.count - 3), fibZ (f.count - 2), fibZ (f.count - 1)] := by
  refine ⟨next_advanceState (n - 1), ?_, ?_⟩
  · obtain ⟨j, rfl⟩ : ∃ j, n = j + 1 := ⟨n - 1, by omega⟩
    exact current_advanceState j
  · rcases reachable_goodState hf with rfl | rfl | rfl | rfl | rfl | rfl | ⟨m, rfl⟩
    · exact absurd h4 (by decide)
    · exact absurd h4 (by decide)
    · exact absurd h4 (by decide)
    · exact absurd h4 (by decide)
    · exact absurd h4 (by decide)
    · exact absurd h4 (by decide)
    · have h3 : m + 4 - 3 = m + 1 := by omega
      have h2 : m + 4 - 2 = m + 2 := by omega
      have h1 : m + 4 - 1 = m + 3 := by omega
      simp [h1, h2, h3]

/-- C10 witness: instantiated at `n = 5` and the reachable state after five
advances, whose step is 5 and whose window is `[F(2), F(3), F(4)] = [1, 2, 3]`. -/
theorem advance_values_and_steady_window_witness :
    (1 ≤ 5 ∧ 4 ≤ (advanceState 5).count) ∧
    ((Fibonacci.next (advanceState (5 - 1))).1 = some (fibZ (5 - 1)) ∧
      Fibonacci.current (advanceState 5) = some (fibZ (5 - 1)) ∧
      (advanceState 5).full =
        [fibZ ((advanceState 5).count - 3), fibZ ((advanceState 5).count - 2),
          fibZ ((advanceState 5).count - 1)]) :=
  ⟨⟨by decide, by decide⟩,
    advance_values_and_steady_window 5 (by decide) (advanceState 5)
      (Reachable.next (Reachable.next (Reachable.next (Reachable.next
        (Reachable.next Reachable.init))))) (by decide)⟩
